import Mathlib

/-!
Verification of the query-generation and candidate-ranking resolver of
nexus-search (`yt_search.py`).

The Python source is shallowly embedded: strings become `String`/`List Char`,
the two compiled regular expressions (`_FEAT_RE`, `_PARENS_RE`) become
deterministic matchers that reproduce `re.sub`'s leftmost, non-overlapping
substitution semantics, float durations become exact rationals, and the
`yt-dlp` subprocess becomes an explicit backend function parameter
`String → Nat → List SearchCandidate` (the spec's Search Backend capability).
-/

/-! Character classes used by the two regular expressions.  Python's `\s`,
restricted to the whitespace characters relevant here (also used to model
`str.split()` and `str.strip()`). -/

def isWS (c : Char) : Bool := c = ' ' || c = '\t' || c = '\n' || c = '\r'

def isOpen (c : Char) : Bool := c = '(' || c = '['

def isClose (c : Char) : Bool := c = ')' || c = ']'

/-- Position (plus one) of the first closing bracket in the list: the length
consumed by `[^\)\]]*[\)\]]` when it succeeds. -/
def closeSpan : List Char → Option Nat
  | [] => none
  | c :: rest => if isClose c then some 1 else (closeSpan rest).map (· + 1)

/-- Length of the match of `_PARENS_RE` = `\s*[\(\[][^\)\]]*[\)\]]` starting at
the head of the list, or `none`.  Greedy `\s*` and `[^\)\]]*` need no
backtracking here: openers are not whitespace and `[\)\]]` only matches the
first closer. -/
def matchParensAt : List Char → Option Nat
  | [] => none
  | c :: rest =>
    if isWS c then (matchParensAt rest).map (· + 1)
    else if isOpen c then (closeSpan rest).map (· + 1)
    else none

/-- Featuring markers of `_FEAT_RE`: `feat\.?|ft\.?|featuring|with`
(the `\.?` alternatives are expanded). -/
def featMarkers : List (List Char) :=
  ["feat.".data, "feat".data, "ft.".data, "ft".data, "featuring".data, "with".data]

/-- Match of `\s+[^\)\]]+[\)\]]` at the head of the list: at least one
whitespace character, then at least one character before the first closer
(whitespace counts, matching the regex since `\s ⊆ [^\)\]]`). -/
def matchTail : List Char → Option Nat
  | [] => none
  | c :: rest =>
    if isWS c then
      match closeSpan (c :: rest) with
      | some t => if 3 ≤ t then some t else none
      | none => none
    else none

/-- One marker alternative followed by the tail pattern, case-insensitively. -/
def markerAt (l : List Char) (m : List Char) : Option Nat :=
  if (l.take m.length).map Char.toLower = m then
    (matchTail (l.drop m.length)).map (· + m.length)
  else none

/-- Match of `\s*(?:feat\.?|ft\.?|featuring|with)\s+[^\)\]]+[\)\]]` (the part
of `_FEAT_RE` after the opening bracket) at the head of the list. -/
def matchFeatAfterOpen : List Char → Option Nat
  | [] => none
  | c :: rest =>
    if isWS c then (matchFeatAfterOpen rest).map (· + 1)
    else featMarkers.findSome? (markerAt (c :: rest))

/-- Length of the match of `_FEAT_RE` starting at the head of the list. -/
def matchFeatAt : List Char → Option Nat
  | [] => none
  | c :: rest =>
    if isWS c then (matchFeatAt rest).map (· + 1)
    else if isOpen c then (matchFeatAfterOpen rest).map (· + 1)
    else none

/-- Model of `re.sub(pattern, '', s)`: scan left to right; at each position either
remove a match and continue after it, or keep the character.  The fuel is the
list length; every matcher used here consumes at least one character, so the
fuel never runs out. -/
def subAux (m : List Char → Option Nat) : Nat → List Char → List Char
  | 0, l => l
  | fuel + 1, l =>
    match l with
    | [] => []
    | c :: rest =>
      match m (c :: rest) with
      | some n => subAux m fuel ((c :: rest).drop n)
      | none => c :: subAux m fuel rest

def pySub (m : List Char → Option Nat) (l : List Char) : List Char :=
  subAux m l.length l

/-- Python `str.strip()`: drop leading and trailing whitespace. -/
def stripL (l : List Char) : List Char :=
  (l.dropWhile isWS).rdropWhile isWS

/-- Python `str.split(';')`: split on every semicolon, keeping empty pieces. -/
def splitSemi : List Char → List (List Char)
  | [] => [[]]
  | c :: rest =>
    if c = ';' then [] :: splitSemi rest
    else
      match splitSemi rest with
      | p :: ps => (c :: p) :: ps
      | [] => [[c]]

/-- Python `' '.join(pieces)`. -/
def joinSp : List (List Char) → List Char
  | [] => []
  | [p] => p
  | p :: q :: qs => p ++ ' ' :: joinSp (q :: qs)

/-- Accumulator-based worker for `str.split()` (whitespace split dropping
empty tokens); `acc` is the current token, reversed. -/
def splitWSAux : List Char → List Char → List (List Char)
  | [], acc => if acc = [] then [] else [acc.reverse]
  | c :: rest, acc =>
    if isWS c then
      if acc = [] then splitWSAux rest [] else acc.reverse :: splitWSAux rest []
    else splitWSAux rest (c :: acc)

/-- Python `str.split()` with no argument. -/
def splitWS (l : List Char) : List (List Char) := splitWSAux l []

/-- Python `' '.join(q.split())`: whitespace collapse. -/
def collapseL (l : List Char) : List Char := joinSp (splitWS l)

/-! Source functions of `yt_search.py`, lines 24–41. -/

/-- Source `_primary_artist`: `artist.split(';')[0].strip()`. -/
def primary_artist (artist : String) : String :=
  ⟨stripL ((splitSemi artist.data).headD [])⟩

/-- Source `_strip_featured`: `_FEAT_RE.sub('', name).strip()`. -/
def strip_featured (name : String) : String :=
  ⟨stripL (pySub matchFeatAt name.data)⟩

/-- Source `_strip_all_parens`: `_PARENS_RE.sub('', name).strip()`. -/
def strip_all_parens (name : String) : String :=
  ⟨stripL (pySub matchParensAt name.data)⟩

/-- Source `_all_artists_spaced`:
`' '.join(a.strip() for a in artist.split(';') if a.strip())`. -/
def all_artists_spaced (artist : String) : String :=
  ⟨joinSp (((splitSemi artist.data).map stripL).filter (· ≠ []))⟩

/-- Whitespace collapse of a query string, `' '.join(q.split())`. -/
def collapse (s : String) : String := ⟨collapseL s.data⟩

/-- Dedup signature of a query string, `' '.join(q.split()).lower()`. -/
def sigOf (s : String) : String := ⟨(collapseL s.data).map Char.toLower⟩

/-- The dedup loop of `build_search_queries` (lines 61–75): `seen` is the set
of signatures already emitted (modelled as a list). -/
def dedupLoop : List String → List String → List String
  | [], _ => []
  | q :: rest, seen =>
    if sigOf q ∈ seen then dedupLoop rest seen
    else collapse q :: dedupLoop rest (sigOf q :: seen)

/-- Source `build_search_queries` (lines 44–77): the six fixed templates, in
order, deduplicated by case-insensitive whitespace-collapsed signature. -/
def build_search_queries (track_name artist : String) : List String :=
  dedupLoop
    [track_name ++ " " ++ all_artists_spaced artist,
     track_name ++ " " ++ primary_artist artist,
     strip_featured track_name ++ " " ++ primary_artist artist,
     strip_all_parens track_name ++ " " ++ primary_artist artist,
     track_name ++ " " ++ primary_artist artist ++ " audio",
     track_name ++ " " ++ primary_artist artist ++ " lyrics"]
    []

/-! The candidate ranker and the resolver (lines 82–175).  Durations are
floats in the source; they are modelled as exact rationals. -/

structure SearchCandidate where
  url : String
  duration_s : ℚ

/-- Python `min(iterable, key=...)`: fold keeping the earliest element whose
key is strictly smaller than the best so far (first minimum wins). -/
def pyMin (key : SearchCandidate → ℚ) : SearchCandidate → List SearchCandidate → SearchCandidate
  | best, [] => best
  | best, c :: rest => pyMin key (if key c < key best then c else best) rest

/-- Source `_pick_best` (lines 127–141). -/
def pick_best (candidates : List SearchCandidate) (target_ms : Option Int) : Option String :=
  match candidates with
  | [] => none
  | c0 :: rest =>
    match target_ms with
    | none => some c0.url
    | some t =>
      if t ≤ 0 then some c0.url
      else
        let target_s : ℚ := (t : ℚ) / 1000
        match (c0 :: rest).filter (fun c => c.duration_s ≤ target_s * 3) with
        | [] => some (pyMin (fun c => |c.duration_s - target_s|) c0 rest).url
        | r0 :: rs => some (pyMin (fun c => |c.duration_s - target_s|) r0 rs).url

/-- The candidate-construction filter of `_yt_search` (lines 107–121): only
pairs whose URL starts with `http` become candidates.  The extraction of the
`(url, duration)` pairs from the raw `yt-dlp` output lines (`rsplit`/`float`)
is abstracted into the input list. -/
def candidateFilter (extracted : List (String × ℚ)) : List SearchCandidate :=
  (extracted.filter (fun p => "http".data.isPrefixOf p.1.data)).map
    (fun p => ⟨p.1, p.2⟩)

/-- Python truthiness of `_pick_best`'s result in `if url:` (line 171):
`None` and the empty string are both falsy. -/
def accepted : Option String → Option String
  | none => none
  | some url => if url = "" then none else some url

/-- The strategy loop of `search_youtube` (lines 168–175); `idx` is the
1-based index of the head query, `total` the strategy count. -/
def searchLoop (backend : String → Nat → List SearchCandidate) (d : Option Int)
    (n total : Nat) : List String → Nat → String × String
  | [], _ => ("", "No results after " ++ Nat.repr total ++ " search strategies")
  | q :: rest, idx =>
    match accepted (pick_best (backend q n) d) with
    | some url =>
      (url, "strategy " ++ Nat.repr idx ++ "/" ++ Nat.repr total ++ ": \"" ++ q ++ "\"")
    | none => searchLoop backend d n total rest (idx + 1)

/-- Source `search_youtube` (lines 146–175), with the `_yt_search` subprocess
call abstracted as the `backend` parameter.  Returns `(url, strategy)` on
success and `('', reason)` on failure, exactly as the source does. -/
def search_youtube (backend : String → Nat → List SearchCandidate)
    (track_name artist : String) (duration_ms : Option Int)
    (candidates_per_query : Nat) : String × String :=
  searchLoop backend duration_ms candidates_per_query
    (build_search_queries track_name artist).length
    (build_search_queries track_name artist) 1

/-- Instrumented strategy loop: additionally returns the list of queries
actually handed to the backend, in order. -/
def searchLoopTr (backend : String → Nat → List SearchCandidate) (d : Option Int)
    (n total : Nat) : List String → Nat → (String × String) × List String
  | [], _ => (("", "No results after " ++ Nat.repr total ++ " search strategies"), [])
  | q :: rest, idx =>
    match accepted (pick_best (backend q n) d) with
    | some url =>
      ((url, "strategy " ++ Nat.repr idx ++ "/" ++ Nat.repr total ++ ": \"" ++ q ++ "\""), [q])
    | none =>
      let r := searchLoopTr backend d n total rest (idx + 1)
      (r.1, q :: r.2)

/-- The queries `search_youtube` hands to the backend, in invocation order. -/
def search_youtube_trace (backend : String → Nat → List SearchCandidate)
    (track_name artist : String) (duration_ms : Option Int)
    (candidates_per_query : Nat) : List String :=
  (searchLoopTr backend duration_ms candidates_per_query
    (build_search_queries track_name artist).length
    (build_search_queries track_name artist) 1).2

/-! Spec-side definitions, written from the words of the specification, to be
compared with the source-side definitions above. -/

/-- Modelled from the spec, §4.3 Candidate Ranker: empty list means no
acceptable candidate; absent or non-positive target trusts the backend order;
otherwise candidates above three times the target are filtered out (falling
back to the unfiltered set when that empties it) and the first candidate
minimizing the distance to the target wins. -/
def pick_best_spec (candidates : List SearchCandidate) (target_ms : Option Int) :
    Option String :=
  match candidates with
  | [] => none
  | _ :: _ =>
    match target_ms with
    | none => candidates.head?.map SearchCandidate.url
    | some t =>
      if t ≤ 0 then candidates.head?.map SearchCandidate.url
      else
        let ts : ℚ := (t : ℚ) / 1000
        let surviving := candidates.filter (fun c => c.duration_s ≤ 3 * ts)
        let pool := if surviving.isEmpty then candidates else surviving
        match pool.map (fun c => |c.duration_s - ts|) with
        | [] => none
        | k :: ks =>
          (pool.find? (fun c => |c.duration_s - ts| = ks.foldl min k)).map
            SearchCandidate.url

/-- Modelled from the spec, §4.2 Query Strategy Builder dedup rule: an entry
is kept -- whitespace-collapsed -- exactly when its case-insensitive
whitespace-normalized signature differs from the signature of every earlier
template; `earlier` collects the templates already processed. -/
def dedupSpec : List String → List String → List String
  | _, [] => []
  | earlier, q :: rest =>
    if sigOf q ∈ earlier.map sigOf then dedupSpec (earlier ++ [q]) rest
    else collapse q :: dedupSpec (earlier ++ [q]) rest

/-- Modelled from the spec, §4.2: the six fixed templates, most to least
specific, deduplicated while preserving first-seen order. -/
def build_queries_spec (title artist_spec : String) : List String :=
  dedupSpec []
    [title ++ " " ++ all_artists_spaced artist_spec,
     title ++ " " ++ primary_artist artist_spec,
     strip_featured title ++ " " ++ primary_artist artist_spec,
     strip_all_parens title ++ " " ++ primary_artist artist_spec,
     title ++ " " ++ primary_artist artist_spec ++ " audio",
     title ++ " " ++ primary_artist artist_spec ++ " lyrics"]

/-! Helper lemmas about `stripL`. -/

theorem stripL_sublist (l : List Char) : List.Sublist (stripL l) l :=
  (( List.rdropWhile_prefix isWS _).sublist).trans (List.dropWhile_suffix isWS).sublist

theorem mem_stripL {c : Char} {l : List Char} (h : c ∈ stripL l) : c ∈ l :=
  (stripL_sublist l).mem h

theorem dropWhile_head?_not {p : Char → Bool} :
    ∀ {l : List Char} {c : Char}, (l.dropWhile p).head? = some c → p c = false := by
  intro l
  induction l with
  | nil => intro c hc; simp [List.dropWhile] at hc
  | cons a t ih =>
    intro c hc
    by_cases h : p a
    · rw [List.dropWhile_cons_of_pos h] at hc
      exact ih hc
    · rw [List.dropWhile_cons_of_neg h] at hc
      simp only [List.head?_cons, Option.some.injEq] at hc
      rw [← hc]
      simpa using h

theorem stripL_head_not {l : List Char} :
    ∀ c, (stripL l).head? = some c → isWS c = false := by
  intro c hc
  have hl : stripL l ≠ [] := by
    intro h0
    rw [h0] at hc
    simp at hc
  rw [stripL] at hc hl
  obtain ⟨t, ht⟩ := List.rdropWhile_prefix isWS (l.dropWhile isWS)
  cases hx : (l.dropWhile isWS).rdropWhile isWS with
  | nil => exact absurd hx hl
  | cons a s =>
    rw [hx] at hc ht
    simp only [List.head?_cons, Option.some.injEq] at hc
    have hh : (l.dropWhile isWS).head? = some a := by
      rw [← ht]
      simp
    rw [← hc]
    exact dropWhile_head?_not hh

theorem stripL_getLast_not {l : List Char} :
    ∀ c, (stripL l).getLast? = some c → isWS c = false := by
  intro c hc
  rw [stripL, List.rdropWhile, List.getLast?_reverse] at hc
  exact dropWhile_head?_not hc

theorem stripL_eq_self {l : List Char}
    (hh : ∀ c, l.head? = some c → isWS c = false)
    (hl : ∀ c, l.getLast? = some c → isWS c = false) : stripL l = l := by
  have h1 : l.dropWhile isWS = l := by
    rw [List.dropWhile_eq_self_iff]
    intro hp hws
    have hhd : l.head? = some (l.get ⟨0, hp⟩) := by
      cases l with
      | nil => simp at hp
      | cons a t => simp
    exact absurd (hh _ hhd) (by simpa using hws)
  have h2 : l.rdropWhile isWS = l := by
    rw [List.rdropWhile_eq_self_iff]
    intro hp hws
    have hgl : l.getLast? = some (l.getLast hp) := List.getLast?_eq_getLast_of_ne_nil hp
    exact absurd (hl _ hgl) (by simpa using hws)
  rw [stripL, h1, h2]

theorem stripL_idem (l : List Char) : stripL (stripL l) = stripL l :=
  stripL_eq_self stripL_head_not stripL_getLast_not

/-! Helper lemmas about `splitSemi` and `joinSp`. -/

theorem splitSemi_ne_nil (l : List Char) : splitSemi l ≠ [] := by
  cases l with
  | nil => simp [splitSemi]
  | cons c rest =>
    rw [splitSemi]
    by_cases h : c = ';'
    · simp [h]
    · simp only [if_neg h]
      cases splitSemi rest <;> simp

theorem splitSemi_no_semi :
    ∀ {l : List Char} {p : List Char}, p ∈ splitSemi l → ∀ c ∈ p, c ≠ ';' := by
  intro l
  induction l with
  | nil => intro p hp c hc; simp [splitSemi] at hp; simp [hp] at hc
  | cons a rest ih =>
    intro p hp c hc
    rw [splitSemi] at hp
    by_cases h : a = ';'
    · rw [if_pos h] at hp
      rcases List.mem_cons.mp hp with h1 | h1
      · simp [h1] at hc
      · exact ih h1 c hc
    · rw [if_neg h] at hp
      cases hs : splitSemi rest with
      | nil => exact absurd hs (splitSemi_ne_nil rest)
      | cons q qs =>
        rw [hs] at hp
        rcases List.mem_cons.mp hp with h1 | h1
        · subst h1
          rcases List.mem_cons.mp hc with h2 | h2
          · simpa [h2] using h
          · exact ih (hs ▸ List.mem_cons_self q qs) c h2
        · exact ih (hs ▸ List.mem_cons.mpr (Or.inr h1)) c hc

theorem splitSemi_of_no_semi {l : List Char} (h : ∀ c ∈ l, c ≠ ';') :
    splitSemi l = [l] := by
  induction l with
  | nil => rfl
  | cons a rest ih =>
    rw [splitSemi, if_neg (h a (List.mem_cons_self a rest)),
      ih (fun c hc => h c (List.mem_cons.mpr (Or.inr hc)))]

theorem mem_joinSp :
    ∀ {L : List (List Char)} {c : Char}, c ∈ joinSp L → c = ' ' ∨ ∃ p ∈ L, c ∈ p := by
  intro L
  induction L with
  | nil => intro c hc; simp [joinSp] at hc
  | cons p ps ih =>
    intro c hc
    cases ps with
    | nil => exact Or.inr ⟨p, by simp, by simpa [joinSp] using hc⟩
    | cons q qs =>
      rw [joinSp] at hc
      rcases List.mem_append.mp hc with h1 | h1
      · exact Or.inr ⟨p, by simp, h1⟩
      · rcases List.mem_cons.mp h1 with h2 | h2
        · exact Or.inl h2
        · rcases ih h2 with h3 | ⟨r, hr, hcr⟩
          · exact Or.inl h3
          · exact Or.inr ⟨r, List.mem_cons.mpr (Or.inr hr), hcr⟩

theorem joinSp_ne_nil {p : List Char} {ps : List (List Char)} (hp : p ≠ []) :
    joinSp (p :: ps) ≠ [] := by
  cases ps with
  | nil => simpa [joinSp] using hp
  | cons q qs => rw [joinSp]; simp [hp]

theorem joinSp_head? {p : List Char} {ps : List (List Char)} (hp : p ≠ []) :
    (joinSp (p :: ps)).head? = p.head? := by
  cases ps with
  | nil => rfl
  | cons q qs =>
    rw [joinSp]
    cases p with
    | nil => exact absurd rfl hp
    | cons a t => simp

theorem joinSp_getLast?_not {L : List (List Char)}
    (h : ∀ p ∈ L, p ≠ [] ∧ ∀ c, p.getLast? = some c → isWS c = false) :
    ∀ c, (joinSp L).getLast? = some c → isWS c = false := by
  induction L with
  | nil => intro c hc; simp [joinSp] at hc
  | cons p ps ih =>
    intro c hc
    cases ps with
    | nil =>
      exact (h p (by simp)).2 c (by simpa [joinSp] using hc)
    | cons q qs =>
      rw [joinSp] at hc
      have hqn : joinSp (q :: qs) ≠ [] :=
        joinSp_ne_nil (h q (by simp)).1
      rw [List.getLast?_append_of_ne_nil _ (by simp [hqn])] at hc
      have hc2 : (joinSp (q :: qs)).getLast? = some c := by
        cases hj : joinSp (q :: qs) with
        | nil => exact absurd hj hqn
        | cons b bs => rw [hj] at hc; simpa [List.getLast?_cons_cons] using hc
      exact ih (fun r hr => h r (List.mem_cons.mpr (Or.inr hr))) c hc2

/-! Idempotence of `primary_artist` and `all_artists_spaced`. -/

theorem primary_artist_idem (a : String) :
    primary_artist (primary_artist a) = primary_artist a := by
  rw [primary_artist, primary_artist]
  congr 1
  have hmem : (splitSemi a.data).headD [] ∈ splitSemi a.data := by
    cases hs : splitSemi a.data with
    | nil => exact absurd hs (splitSemi_ne_nil a.data)
    | cons x xs => simp
  have hns : ∀ c ∈ stripL ((splitSemi a.data).headD []), c ≠ ';' :=
    fun c hc => splitSemi_no_semi hmem c (mem_stripL hc)
  rw [splitSemi_of_no_semi hns]
  simp only [List.headD_cons]
  exact stripL_idem _

theorem all_artists_pieces {a : String} {p : List Char}
    (hp : p ∈ ((splitSemi a.data).map stripL).filter (· ≠ [])) :
    p ≠ [] ∧ (∃ x ∈ splitSemi a.data, stripL x = p) := by
  have h1 := List.of_mem_filter hp
  have h2 := List.mem_of_mem_filter hp
  refine ⟨by simpa using h1, ?_⟩
  obtain ⟨x, hx, hpx⟩ := List.mem_map.mp h2
  exact ⟨x, hx, hpx⟩

theorem all_artists_spaced_idem (a : String) :
    all_artists_spaced (all_artists_spaced a) = all_artists_spaced a := by
  rw [all_artists_spaced, all_artists_spaced]
  congr 1
  set pieces := ((splitSemi a.data).map stripL).filter (· ≠ []) with hpieces
  have hsemi : ∀ c ∈ joinSp pieces, c ≠ ';' := by
    intro c hc
    rcases mem_joinSp hc with h1 | ⟨p, hp, hcp⟩
    · simp [h1]
    · obtain ⟨-, x, hx, hpx⟩ := all_artists_pieces hp
      exact splitSemi_no_semi hx c (mem_stripL (hpx ▸ hcp))
  rw [splitSemi_of_no_semi hsemi]
  simp only [List.map_cons, List.map_nil]
  cases hP : pieces with
  | nil => simp [hP, joinSp, stripL, List.rdropWhile]
  | cons p ps =>
    have hstrip : stripL (joinSp pieces) = joinSp pieces := by
      apply stripL_eq_self
      · intro c hc
        have hp1 := (all_artists_pieces (hP ▸ List.mem_cons_self p ps)).1
        rw [hP, joinSp_head? hp1] at hc
        obtain ⟨-, x, hx, hpx⟩ := all_artists_pieces (hP ▸ List.mem_cons_self p ps)
        exact stripL_head_not c (by rw [← hpx] at hc; exact hc)
      · intro c hc
        apply joinSp_getLast?_not (L := pieces) ?_ c hc
        intro r hr
        obtain ⟨hrne, x, hx, hrx⟩ := all_artists_pieces hr
        exact ⟨hrne, fun d hd => stripL_getLast_not d (by rw [← hrx] at hd; exact hd)⟩
    have hstrip2 : stripL (joinSp (p :: ps)) = joinSp (p :: ps) := by
      rw [← hP]
      exact hstrip
    rw [hstrip2]
    have hne : joinSp (p :: ps) ≠ [] :=
      joinSp_ne_nil (all_artists_pieces (hP ▸ List.mem_cons_self p ps)).1
    rw [List.filter_cons, if_pos (by simpa using hne), List.filter_nil]
    rfl

/-! Idempotence of `strip_all_parens`.  A list is "clean" when no opening
bracket is followed (anywhere later) by a closing bracket; `_PARENS_RE` has no
match in a clean list, and the output of the substitution is always clean. -/

def CleanP (l : List Char) : Prop :=
  l.Pairwise (fun a b => isOpen a = true → isClose b = false)

theorem closeSpan_bounds :
    ∀ {l : List Char} {t : Nat}, closeSpan l = some t → 1 ≤ t ∧ t ≤ l.length := by
  intro l
  induction l with
  | nil => intro t ht; simp [closeSpan] at ht
  | cons c rest ih =>
    intro t ht
    rw [closeSpan] at ht
    by_cases h : isClose c
    · rw [if_pos h] at ht
      simp only [Option.some.injEq] at ht
      simp only [List.length_cons]
      omega
    · rw [if_neg h] at ht
      rcases Option.map_eq_some'.mp ht with ⟨t0, ht0, rfl⟩
      have := ih ht0
      simp only [List.length_cons]
      omega

theorem closeSpan_eq_none {l : List Char} (h : ∀ c ∈ l, isClose c = false) :
    closeSpan l = none := by
  induction l with
  | nil => rfl
  | cons c rest ih =>
    rw [closeSpan, if_neg (by simp [h c (List.mem_cons_self c rest)]),
      ih (fun d hd => h d (List.mem_cons.mpr (Or.inr hd)))]
    rfl

theorem closeSpan_none_mem :
    ∀ {l : List Char}, closeSpan l = none → ∀ c ∈ l, isClose c = false := by
  intro l
  induction l with
  | nil => intro _ c hc; simp at hc
  | cons a rest ih =>
    intro h c hc
    rw [closeSpan] at h
    by_cases ha : isClose a
    · rw [if_pos ha] at h; exact absurd h (by simp)
    · rw [if_neg ha] at h
      rcases List.mem_cons.mp hc with rfl | h1
      · simpa using ha
      · exact ih (Option.map_eq_none'.mp h) c h1

theorem matchParensAt_bounds :
    ∀ {l : List Char} {n : Nat}, matchParensAt l = some n → 1 ≤ n ∧ n ≤ l.length := by
  intro l
  induction l with
  | nil => intro n hn; simp [matchParensAt] at hn
  | cons c rest ih =>
    intro n hn
    rw [matchParensAt] at hn
    by_cases h1 : isWS c
    · rw [if_pos h1] at hn
      rcases Option.map_eq_some'.mp hn with ⟨n0, hn0, rfl⟩
      have := ih hn0
      simp only [List.length_cons]
      omega
    · rw [if_neg h1] at hn
      by_cases h2 : isOpen c
      · rw [if_pos h2] at hn
        rcases Option.map_eq_some'.mp hn with ⟨n0, hn0, rfl⟩
        have := closeSpan_bounds hn0
        simp only [List.length_cons]
        omega
      · rw [if_neg h2] at hn
        exact absurd hn (by simp)

theorem subAux_sublist (m : List Char → Option Nat) :
    ∀ (fuel : Nat) (l : List Char), List.Sublist (subAux m fuel l) l := by
  intro fuel
  induction fuel with
  | zero => intro l; rw [subAux]
  | succ f ih =>
    intro l
    cases l with
    | nil => rw [subAux]
    | cons c rest =>
      rw [subAux]
      cases m (c :: rest) with
      | some n =>
        exact (ih _).trans (List.drop_sublist n (c :: rest))
      | none =>
        exact (ih rest).cons₂ c

theorem mem_subAux {m : List Char → Option Nat} {fuel : Nat} {l : List Char}
    {c : Char} (h : c ∈ subAux m fuel l) : c ∈ l :=
  (subAux_sublist m fuel l).mem h

theorem isOpen_not_ws {c : Char} (h : isOpen c = true) : isWS c = false := by
  rw [isOpen] at h
  rcases Bool.or_eq_true_iff.mp h with h1 | h1
  · rw [show c = '(' by exact decide_eq_true_eq.mp h1]; rfl
  · rw [show c = '[' by exact decide_eq_true_eq.mp h1]; rfl

theorem isOpen_not_close {c : Char} (h : isOpen c = true) : isClose c = false := by
  rw [isOpen] at h
  rcases Bool.or_eq_true_iff.mp h with h1 | h1
  · rw [show c = '(' by exact decide_eq_true_eq.mp h1]; rfl
  · rw [show c = '[' by exact decide_eq_true_eq.mp h1]; rfl

theorem matchParensAt_none_of_clean :
    ∀ {l : List Char}, CleanP l → matchParensAt l = none := by
  intro l
  induction l with
  | nil => intro _; rfl
  | cons c rest ih =>
    intro h
    have hpair := List.pairwise_cons.mp h
    rw [matchParensAt]
    by_cases h1 : isWS c
    · rw [if_pos h1, ih hpair.2]
      rfl
    · rw [if_neg h1]
      by_cases h2 : isOpen c
      · rw [if_pos h2, closeSpan_eq_none (fun d hd => hpair.1 d hd h2)]
        rfl
      · rw [if_neg h2]

theorem clean_subAux :
    ∀ (fuel : Nat) (l : List Char), l.length ≤ fuel →
      CleanP (subAux matchParensAt fuel l) := by
  intro fuel
  induction fuel with
  | zero =>
    intro l hl
    rw [List.length_eq_zero.mp (Nat.le_zero.mp hl)]
    rw [subAux]
    exact List.Pairwise.nil
  | succ f ih =>
    intro l hl
    cases l with
    | nil => rw [subAux]; exact List.Pairwise.nil
    | cons c rest =>
      rw [subAux]
      cases hm : matchParensAt (c :: rest) with
      | some n =>
        have hb := matchParensAt_bounds hm
        apply ih
        simp only [List.length_drop, List.length_cons]
        simp only [List.length_cons] at hl hb
        omega
      | none =>
        apply List.pairwise_cons.mpr
        constructor
        · intro b hb hopen
          rw [matchParensAt, if_neg (by simp [isOpen_not_ws hopen]), if_pos hopen] at hm
          exact closeSpan_none_mem (Option.map_eq_none'.mp hm) b (mem_subAux hb)
        · exact ih rest (by simp only [List.length_cons] at hl; omega)

theorem subAux_eq_of_clean :
    ∀ (fuel : Nat) (l : List Char), CleanP l → subAux matchParensAt fuel l = l := by
  intro fuel
  induction fuel with
  | zero => intro l _; rw [subAux]
  | succ f ih =>
    intro l hc
    cases l with
    | nil => rw [subAux]
    | cons c rest =>
      rw [subAux, matchParensAt_none_of_clean hc,
        ih rest (List.pairwise_cons.mp hc).2]

theorem clean_stripL {l : List Char} (h : CleanP l) : CleanP (stripL l) :=
  List.Pairwise.sublist (stripL_sublist l) h

theorem strip_all_parens_idem (s : String) :
    strip_all_parens (strip_all_parens s) = strip_all_parens s := by
  rw [strip_all_parens, strip_all_parens]
  congr 1
  have hclean : CleanP (stripL (pySub matchParensAt s.data)) :=
    clean_stripL (clean_subAux s.data.length s.data le_rfl)
  rw [show pySub matchParensAt (stripL (pySub matchParensAt s.data)) =
      stripL (pySub matchParensAt s.data) from
    subAux_eq_of_clean _ _ hclean]
  exact stripL_idem _

/-! Idempotence of whitespace collapse: `splitWS` tokens are nonempty and
whitespace-free, and `splitWS` recovers the tokens from their join. -/

theorem splitWSAux_tokens :
    ∀ (l acc : List Char), (∀ c ∈ acc, isWS c = false) →
      ∀ t ∈ splitWSAux l acc, t ≠ [] ∧ ∀ c ∈ t, isWS c = false := by
  intro l
  induction l with
  | nil =>
    intro acc hacc t ht
    rw [splitWSAux] at ht
    by_cases h : acc = []
    · rw [if_pos h] at ht; simp at ht
    · rw [if_neg h] at ht
      simp only [List.mem_singleton] at ht
      subst ht
      exact ⟨by simpa using h, fun c hc => hacc c (List.mem_reverse.mp hc)⟩
  | cons a rest ih =>
    intro acc hacc t ht
    rw [splitWSAux] at ht
    by_cases h : isWS a
    · rw [if_pos h] at ht
      by_cases h2 : acc = []
      · rw [if_pos h2] at ht
        exact ih [] (by simp) t ht
      · rw [if_neg h2] at ht
        rcases List.mem_cons.mp ht with rfl | h3
        · exact ⟨by simpa using h2, fun c hc => hacc c (List.mem_reverse.mp hc)⟩
        · exact ih [] (by simp) t h3
    · rw [if_neg h] at ht
      refine ih (a :: acc) ?_ t ht
      intro c hc
      rcases List.mem_cons.mp hc with rfl | h3
      · simpa using h
      · exact hacc c h3

theorem splitWS_tokens {l : List Char} :
    ∀ t ∈ splitWS l, t ≠ [] ∧ ∀ c ∈ t, isWS c = false :=
  splitWSAux_tokens l [] (by simp)

theorem splitWSAux_chunk :
    ∀ (tok l acc : List Char), (∀ c ∈ tok, isWS c = false) →
      splitWSAux (tok ++ l) acc = splitWSAux l (tok.reverse ++ acc) := by
  intro tok
  induction tok with
  | nil => intro l acc _; simp
  | cons a t ih =>
    intro l acc htok
    rw [List.cons_append, splitWSAux,
      if_neg (by simpa using htok a (List.mem_cons_self a t)),
      ih l (a :: acc) (fun c hc => htok c (List.mem_cons.mpr (Or.inr hc)))]
    simp

theorem splitWS_joinSp :
    ∀ {toks : List (List Char)},
      (∀ t ∈ toks, t ≠ [] ∧ ∀ c ∈ t, isWS c = false) →
      splitWS (joinSp toks) = toks := by
  intro toks
  induction toks with
  | nil => intro _; rfl
  | cons p ps ih =>
    intro h
    have hp := h p (List.mem_cons_self p ps)
    cases ps with
    | nil =>
      show splitWSAux (joinSp [p]) [] = [p]
      rw [joinSp, ← List.append_nil p, splitWSAux_chunk p [] [] hp.2,
        splitWSAux, if_neg (by simpa using hp.1)]
      simp
    | cons q qs =>
      show splitWSAux (joinSp (p :: q :: qs)) [] = p :: q :: qs
      rw [joinSp, splitWSAux_chunk p (' ' :: joinSp (q :: qs)) [] hp.2,
        splitWSAux, if_pos (by rfl),
        if_neg (by simpa using hp.1)]
      rw [List.append_nil, List.reverse_reverse]
      have := ih (fun t ht => h t (List.mem_cons.mpr (Or.inr ht)))
      rw [splitWS] at this
      rw [this]

theorem collapseL_idem (l : List Char) : collapseL (collapseL l) = collapseL l := by
  rw [collapseL, collapseL, splitWS_joinSp splitWS_tokens]

theorem sigOf_collapse (q : String) : sigOf (collapse q) = sigOf q := by
  rw [sigOf, collapse, sigOf]
  congr 1
  show (collapseL (collapseL q.data)).map Char.toLower = (collapseL q.data).map Char.toLower
  rw [collapseL_idem]

/-! Properties of the dedup loop. -/

theorem dedupLoop_pairwise :
    ∀ (l seen : List String),
      (dedupLoop l seen).Pairwise (fun x y => sigOf x ≠ sigOf y) ∧
      ∀ e ∈ dedupLoop l seen, sigOf e ∉ seen := by
  intro l
  induction l with
  | nil => intro seen; simp [dedupLoop]
  | cons q rest ih =>
    intro seen
    rw [dedupLoop]
    by_cases h : sigOf q ∈ seen
    · rw [if_pos h]
      exact ih seen
    · rw [if_neg h]
      have ihq := ih (sigOf q :: seen)
      constructor
      · apply List.pairwise_cons.mpr
        refine ⟨fun e he => ?_, ihq.1⟩
        have : sigOf e ∉ sigOf q :: seen := ihq.2 e he
        rw [sigOf_collapse]
        intro heq
        exact this (heq ▸ List.mem_cons_self _ _)
      · intro e he
        rcases List.mem_cons.mp he with rfl | h2
        · rw [sigOf_collapse]; exact h
        · intro hmem
          exact (ihq.2 e h2) (List.mem_cons.mpr (Or.inr hmem))

theorem dedupLoop_cons_ne_nil (q : String) (rest : List String) :
    dedupLoop (q :: rest) [] ≠ [] := by
  rw [dedupLoop, if_neg (by simp)]
  simp

theorem dedupLoop_eq_dedupSpec :
    ∀ (l earlier seen : List String),
      (∀ x, x ∈ seen ↔ x ∈ earlier.map sigOf) →
      dedupLoop l seen = dedupSpec earlier l := by
  intro l
  induction l with
  | nil => intro earlier seen _; rfl
  | cons q rest ih =>
    intro earlier seen hinv
    rw [dedupLoop, dedupSpec]
    have hcond : (sigOf q ∈ seen) ↔ (sigOf q ∈ earlier.map sigOf) := hinv (sigOf q)
    have hinv2 : ∀ x, x ∈ sigOf q :: seen ↔ x ∈ (earlier ++ [q]).map sigOf := by
      intro x
      rw [List.map_append, List.map_cons, List.map_nil]
      constructor
      · intro hx
        rcases List.mem_cons.mp hx with rfl | hx2
        · exact List.mem_append.mpr (Or.inr (by simp))
        · exact List.mem_append.mpr (Or.inl ((hinv x).mp hx2))
      · intro hx
        rcases List.mem_append.mp hx with hx2 | hx2
        · exact List.mem_cons.mpr (Or.inr ((hinv x).mpr hx2))
        · simp only [List.mem_singleton] at hx2
          exact hx2 ▸ List.mem_cons_self _ _
    by_cases h : sigOf q ∈ seen
    · rw [if_pos h, if_pos (hcond.mp h)]
      apply ih (earlier ++ [q]) seen
      intro x
      rw [hinv x, List.map_append, List.map_cons, List.map_nil]
      constructor
      · intro hx; exact List.mem_append.mpr (Or.inl hx)
      · intro hx
        rcases List.mem_append.mp hx with hx2 | hx2
        · exact hx2
        · simp only [List.mem_singleton] at hx2
          rw [hx2]
          exact hcond.mp h
    · rw [if_neg h, if_neg (fun hc => h (hcond.mpr hc))]
      rw [ih (earlier ++ [q]) (sigOf q :: seen) hinv2]

/-! Python's `min` returns the first element achieving the minimum key. -/

theorem pyMin_mem (key : SearchCandidate → ℚ) :
    ∀ (cs : List SearchCandidate) (b : SearchCandidate), pyMin key b cs ∈ b :: cs := by
  intro cs
  induction cs with
  | nil => intro b; rw [pyMin]; simp
  | cons c rest ih =>
    intro b
    rw [pyMin]
    by_cases h : key c < key b
    · rw [if_pos h]
      rcases List.mem_cons.mp (ih c) with h1 | h1
      · rw [h1]; simp
      · exact List.mem_cons.mpr (Or.inr (List.mem_cons.mpr (Or.inr h1)))
    · rw [if_neg h]
      rcases List.mem_cons.mp (ih b) with h1 | h1
      · rw [h1]; simp
      · exact List.mem_cons.mpr (Or.inr (List.mem_cons.mpr (Or.inr h1)))

theorem foldlMin_le_init : ∀ (ks : List ℚ) (k : ℚ), ks.foldl min k ≤ k := by
  intro ks
  induction ks with
  | nil => intro k; simp
  | cons x xs ih =>
    intro k
    rw [List.foldl_cons]
    exact (ih (min k x)).trans (min_le_left k x)

theorem pyMin_first_min (key : SearchCandidate → ℚ) :
    ∀ (cs : List SearchCandidate) (b : SearchCandidate),
      (b :: cs).find? (fun e => key e = (cs.map key).foldl min (key b)) =
        some (pyMin key b cs) := by
  intro cs
  induction cs with
  | nil =>
    intro b
    rw [pyMin]
    rw [List.find?_cons_of_pos _ (by simp)]
  | cons c rest ih =>
    intro b
    by_cases h : key c < key b
    · have hfold : ((c :: rest).map key).foldl min (key b) =
          (rest.map key).foldl min (key c) := by
        rw [List.map_cons, List.foldl_cons, min_eq_right (le_of_lt h)]
      have hmle : (rest.map key).foldl min (key c) ≤ key c := foldlMin_le_init _ _
      have hPb : ¬ (key b = (rest.map key).foldl min (key c)) := by
        intro heq
        exact absurd (lt_of_le_of_lt (heq ▸ hmle) h) (lt_irrefl _)
      rw [pyMin, if_pos h, hfold, List.find?_cons_of_neg _ (by simpa using hPb)]
      exact ih c
    · have hkb : key b ≤ key c := le_of_not_lt h
      have hfold : ((c :: rest).map key).foldl min (key b) =
          (rest.map key).foldl min (key b) := by
        rw [List.map_cons, List.foldl_cons, min_eq_left hkb]
      have hmle : (rest.map key).foldl min (key b) ≤ key b := foldlMin_le_init _ _
      rw [pyMin, if_neg h, hfold]
      by_cases hPb : key b = (rest.map key).foldl min (key b)
      · rw [List.find?_cons_of_pos _ (by simpa using hPb)]
        have hih := ih b
        rw [List.find?_cons_of_pos _ (by simpa using hPb)] at hih
        simp only [Option.some.injEq] at hih
        rw [← hih]
      · have hPc : ¬ (key c = (rest.map key).foldl min (key b)) := by
          intro heq
          exact hPb (le_antisymm (heq ▸ hkb) hmle)
        rw [List.find?_cons_of_neg _ (by simpa using hPb),
          List.find?_cons_of_neg _ (by simpa using hPc)]
        have hih := ih b
        rw [List.find?_cons_of_neg _ (by simpa using hPb)] at hih
        exact hih

/-! Basic facts about `pick_best` and the strategy loop. -/

theorem pick_best_mem {cs : List SearchCandidate} {t : Option Int} {u : String}
    (h : pick_best cs t = some u) : ∃ c ∈ cs, c.url = u := by
  cases cs with
  | nil => simp [pick_best] at h
  | cons c0 rest =>
    rw [pick_best.eq_def] at h
    simp only at h
    cases t with
    | none =>
      simp only [Option.some.injEq] at h
      exact ⟨c0, by simp, h⟩
    | some tv =>
      simp only at h
      by_cases htv : tv ≤ 0
      · rw [if_pos htv] at h
        simp only [Option.some.injEq] at h
        exact ⟨c0, by simp, h⟩
      · rw [if_neg htv] at h
        cases hf : (c0 :: rest).filter
            (fun c => c.duration_s ≤ (tv : ℚ) / 1000 * 3) with
        | nil =>
          rw [hf] at h
          simp only [Option.some.injEq] at h
          exact ⟨pyMin (fun c => |c.duration_s - (tv : ℚ) / 1000|) c0 rest,
            pyMin_mem _ rest c0, h⟩
        | cons r0 rs =>
          rw [hf] at h
          simp only [Option.some.injEq] at h
          have hmem : pyMin (fun c => |c.duration_s - (tv : ℚ) / 1000|) r0 rs ∈ r0 :: rs :=
            pyMin_mem _ rs r0
          have hsub : r0 :: rs ⊆ c0 :: rest := by
            rw [← hf]
            exact List.filter_subset' _
          exact ⟨_, hsub hmem, h⟩

theorem pick_best_singleton (c : SearchCandidate) (t : Option Int) :
    pick_best [c] t = some c.url := by
  rw [pick_best.eq_def]
  simp only
  cases t with
  | none => rfl
  | some tv =>
    simp only
    by_cases htv : tv ≤ 0
    · rw [if_pos htv]
    · rw [if_neg htv]
      simp only [List.filter]
      cases h : decide (c.duration_s ≤ (tv : ℚ) / 1000 * 3) with
      | true => rfl
      | false => rfl

theorem accepted_eq_some {o : Option String} {u : String}
    (h : accepted o = some u) : o = some u ∧ u ≠ "" := by
  cases o with
  | none => simp [accepted] at h
  | some v =>
    rw [accepted] at h
    by_cases hv : v = ""
    · rw [if_pos hv] at h; exact absurd h (by simp)
    · rw [if_neg hv] at h
      simp only [Option.some.injEq] at h
      exact ⟨by rw [h], h ▸ hv⟩

theorem searchLoop_all_none (backend : String → Nat → List SearchCandidate)
    (d : Option Int) (n total : Nat) :
    ∀ (l : List String) (idx : Nat),
      (∀ q ∈ l, accepted (pick_best (backend q n) d) = none) →
      searchLoop backend d n total l idx =
        ("", "No results after " ++ Nat.repr total ++ " search strategies") := by
  intro l
  induction l with
  | nil => intro idx _; rw [searchLoop]
  | cons q rest ih =>
    intro idx h
    rw [searchLoop, h q (List.mem_cons_self q rest)]
    exact ih (idx + 1) (fun r hr => h r (List.mem_cons.mpr (Or.inr hr)))

theorem searchLoop_first_success (backend : String → Nat → List SearchCandidate)
    (d : Option Int) (n total : Nat) :
    ∀ (l : List String) (idx i : Nat) (qw u : String),
      l[i]? = some qw →
      (∀ q ∈ l.take i, accepted (pick_best (backend q n) d) = none) →
      accepted (pick_best (backend qw n) d) = some u →
      searchLoop backend d n total l idx =
        (u, "strategy " ++ Nat.repr (idx + i) ++ "/" ++ Nat.repr total ++
          ": \"" ++ qw ++ "\"") := by
  intro l
  induction l with
  | nil => intro idx i qw u hi _ _; simp at hi
  | cons q rest ih =>
    intro idx i qw u hi hnone hacc
    cases i with
    | zero =>
      simp only [List.getElem?_cons_zero, Option.some.injEq] at hi
      subst hi
      rw [searchLoop, hacc]
      rfl
    | succ j =>
      simp only [List.getElem?_cons_succ] at hi
      have hq : accepted (pick_best (backend q n) d) = none := by
        apply hnone
        rw [List.take_succ_cons]
        exact List.mem_cons_self q _
      rw [searchLoop, hq]
      have := ih (idx + 1) j qw u hi
        (fun r hr => hnone r (by rw [List.take_succ_cons]; exact List.mem_cons.mpr (Or.inr hr)))
        hacc
      rw [this, Nat.add_assoc, Nat.add_comm 1 j]

theorem searchLoopTr_fst (backend : String → Nat → List SearchCandidate)
    (d : Option Int) (n total : Nat) :
    ∀ (l : List String) (idx : Nat),
      (searchLoopTr backend d n total l idx).1 = searchLoop backend d n total l idx := by
  intro l
  induction l with
  | nil => intro idx; rw [searchLoopTr, searchLoop]
  | cons q rest ih =>
    intro idx
    rw [searchLoopTr, searchLoop]
    cases accepted (pick_best (backend q n) d) with
    | some url => rfl
    | none => exact ih (idx + 1)

theorem searchLoopTr_trace_success (backend : String → Nat → List SearchCandidate)
    (d : Option Int) (n total : Nat) :
    ∀ (l : List String) (idx i : Nat) (qw u : String),
      l[i]? = some qw →
      (∀ q ∈ l.take i, accepted (pick_best (backend q n) d) = none) →
      accepted (pick_best (backend qw n) d) = some u →
      (searchLoopTr backend d n total l idx).2 = l.take (i + 1) := by
  intro l
  induction l with
  | nil => intro idx i qw u hi _ _; simp at hi
  | cons q rest ih =>
    intro idx i qw u hi hnone hacc
    cases i with
    | zero =>
      simp only [List.getElem?_cons_zero, Option.some.injEq] at hi
      subst hi
      rw [searchLoopTr, hacc]
      rfl
    | succ j =>
      simp only [List.getElem?_cons_succ] at hi
      have hq : accepted (pick_best (backend q n) d) = none := by
        apply hnone
        rw [List.take_succ_cons]
        exact List.mem_cons_self q _
      rw [searchLoopTr, hq]
      have := ih (idx + 1) j qw u hi
        (fun r hr => hnone r (by rw [List.take_succ_cons]; exact List.mem_cons.mpr (Or.inr hr)))
        hacc
      simp only at this ⊢
      rw [this, List.take_succ_cons]

theorem searchLoop_success_mem (backend : String → Nat → List SearchCandidate)
    (d : Option Int) (n total : Nat) :
    ∀ (l : List String) (idx : Nat) (u s : String),
      searchLoop backend d n total l idx = (u, s) → u ≠ "" →
      ∃ q ∈ l, pick_best (backend q n) d = some u := by
  intro l
  induction l with
  | nil =>
    intro idx u s h hu
    rw [searchLoop] at h
    exact absurd (congrArg Prod.fst h).symm (by simpa using hu)
  | cons q rest ih =>
    intro idx u s h hu
    rw [searchLoop] at h
    cases hacc : accepted (pick_best (backend q n) d) with
    | some url =>
      rw [hacc] at h
      have hurl : url = u := by
        have := congrArg Prod.fst h
        simpa using this
      exact ⟨q, List.mem_cons_self q rest, (accepted_eq_some (hurl ▸ hacc)).1⟩
    | none =>
      rw [hacc] at h
      obtain ⟨r, hr, hru⟩ := ih (idx + 1) u s h hu
      exact ⟨r, List.mem_cons.mpr (Or.inr hr), hru⟩

/-! Claim theorems. -/

/-- C1: for every title, artist spec, optional target duration and backend,
the resolver walks the built strategy list in order, handing each query to
the backend exactly once; at the first strategy whose ranked result is an
acceptable (truthy) URL it stops and returns that URL together with the
strategy's 1-based index and its query text, and the trace of backend
invocations is exactly the first i+1 queries -- no later strategy is ever
consulted. -/
theorem C1_resolver_first_success
    (backend : String → Nat → List SearchCandidate) (track_name artist : String)
    (duration_ms : Option Int) (n i : Nat) (qw u : String)
    (hq : (build_search_queries track_name artist)[i]? = some qw)
    (hnone : ∀ q ∈ (build_search_queries track_name artist).take i,
      accepted (pick_best (backend q n) duration_ms) = none)
    (hacc : accepted (pick_best (backend qw n) duration_ms) = some u) :
    search_youtube backend track_name artist duration_ms n =
      (u, "strategy " ++ Nat.repr (i + 1) ++ "/" ++
        Nat.repr (build_search_queries track_name artist).length ++
        ": \"" ++ qw ++ "\"") ∧
    search_youtube_trace backend track_name artist duration_ms n =
      (build_search_queries track_name artist).take (i + 1) := by
  constructor
  · rw [search_youtube,
      searchLoop_first_success backend duration_ms n _ _ 1 i qw u hq hnone hacc,
      Nat.add_comm 1 i]
  · rw [search_youtube_trace]
    exact searchLoopTr_trace_success backend duration_ms n _ _ 1 i qw u hq hnone hacc

/-- C1 witness: a concrete backend that only answers the second strategy of
the pair ("Tune", "X;Y"); the resolver returns that strategy's URL with index
2, and consults exactly the first two queries. -/
theorem C1_resolver_first_success_witness :
    search_youtube (fun q _ => if q = "Tune X" then [⟨"http://u2", 100⟩] else [])
      "Tune" "X;Y" none 3 = ("http://u2", "strategy 2/4: \"Tune X\"") ∧
    search_youtube_trace (fun q _ => if q = "Tune X" then [⟨"http://u2", 100⟩] else [])
      "Tune" "X;Y" none 3 = ["Tune X Y", "Tune X"] := by
  have h := C1_resolver_first_success
    (fun q _ => if q = "Tune X" then [⟨"http://u2", 100⟩] else [])
    "Tune" "X;Y" none 3 1 "Tune X" "http://u2" (by decide) (by decide) (by decide)
  exact ⟨h.1.trans (by decide), h.2.trans (by decide)⟩

/-- C2: the source ranker `_pick_best` agrees with the spec's ranking rules on
every input: empty list gives no candidate, absent or non-positive target
yields the first candidate's URL, otherwise the ratio filter (with fallback to
the unfiltered list) is applied and the first candidate minimizing the
distance to the target wins. -/
theorem C2_pick_best_matches_spec :
    ∀ (candidates : List SearchCandidate) (target_ms : Option Int),
      pick_best candidates target_ms = pick_best_spec candidates target_ms := by
  intro cs t
  cases cs with
  | nil => rfl
  | cons c0 rest =>
    rw [pick_best.eq_def, pick_best_spec.eq_def]
    simp only
    cases t with
    | none => rfl
    | some tv =>
      simp only
      by_cases htv : tv ≤ 0
      · rw [if_pos htv, if_pos htv]
        rfl
      · rw [if_neg htv, if_neg htv]
        have hpred :
            (fun c : SearchCandidate => decide (c.duration_s ≤ 3 * ((tv : ℚ) / 1000))) =
            (fun c : SearchCandidate => decide (c.duration_s ≤ (tv : ℚ) / 1000 * 3)) := by
          funext c
          rw [mul_comm]
        rw [hpred]
        cases hf : (c0 :: rest).filter
            (fun c => decide (c.duration_s ≤ (tv : ℚ) / 1000 * 3)) with
        | nil =>
          simp only [List.isEmpty_nil, if_true]
          rw [List.map_cons]
          simp only
          rw [pyMin_first_min (fun c => |c.duration_s - (tv : ℚ) / 1000|) rest c0]
          rfl
        | cons r0 rs =>
          simp only [List.isEmpty_cons]
          rw [if_neg (by simp), List.map_cons]
          simp only
          rw [pyMin_first_min (fun c => |c.duration_s - (tv : ℚ) / 1000|) rs r0]
          rfl

/-- C3: `build_search_queries` returns exactly the six fixed templates --
title+all artists, title+primary, title without feat credit+primary, title
without parentheticals+primary, title+primary+"audio", title+primary+
"lyrics" -- in that order, each whitespace-collapsed, dropping any later
entry whose case-insensitive whitespace-normalized signature equals an
earlier entry's, preserving first-seen order; formally the source builder
coincides with the spec-side builder on every input. -/
theorem C3_build_queries_eq_spec (title artist_spec : String) :
    build_search_queries title artist_spec = build_queries_spec title artist_spec := by
  rw [build_search_queries, build_queries_spec]
  exact dedupLoop_eq_dedupSpec _ [] [] (by simp)

/-- C4: for every input pair the generated strategy list is non-empty and no
two of its entries agree after whitespace/case normalization (determinism is
inherent: the builder is a pure function of its two arguments). -/
theorem C4_queries_nonempty_dedup (title artist_spec : String) :
    build_search_queries title artist_spec ≠ [] ∧
    (build_search_queries title artist_spec).Pairwise
      (fun x y => sigOf x ≠ sigOf y) := by
  constructor
  · rw [build_search_queries]
    exact dedupLoop_cons_ne_nil _ _
  · rw [build_search_queries]
    exact (dedupLoop_pairwise _ []).1

/-- C5 counterexample: `_pick_best` itself performs no URL validation -- fed
a candidate list containing a URL without the `http` prefix, it happily
returns that URL, so the claim "any candidate whose url lacks an http(s)
prefix is discarded ... by the ranking step" is false for arbitrary candidate
lists. -/
theorem C5_counterexample :
    pick_best [⟨"ftp.example/x", 0⟩] none = some "ftp.example/x" ∧
    "http".data.isPrefixOf "ftp.example/x".data = false := by
  exact ⟨rfl, by decide⟩

/-- C5 (amended): the discard happens in `_yt_search`'s parsing filter, not
in `_pick_best`: every candidate the parser constructs has an `http`-prefixed
URL, and on any candidate list all of whose URLs are `http`-prefixed (as the
lists handed to the ranker by `_yt_search` always are) the ranker can only
return an `http`-prefixed URL. -/
theorem C5_http_filter_amended :
    (∀ (extracted : List (String × ℚ)), ∀ c ∈ candidateFilter extracted,
        "http".data.isPrefixOf c.url.data = true) ∧
    (∀ (cs : List SearchCandidate) (t : Option Int) (u : String),
        (∀ c ∈ cs, "http".data.isPrefixOf c.url.data = true) →
        pick_best cs t = some u → "http".data.isPrefixOf u.data = true) := by
  constructor
  · intro ex c hc
    rw [candidateFilter] at hc
    obtain ⟨p, hp, hpc⟩ := List.mem_map.mp hc
    have hfil := List.of_mem_filter hp
    rw [← hpc]
    simpa using hfil
  · intro cs t u hall hpick
    obtain ⟨c, hc, hcu⟩ := pick_best_mem hpick
    rw [← hcu]
    exact hall c hc

/-- C5 witness: the amended theorem applied to a singleton https candidate. -/
theorem C5_http_filter_amended_witness :
    "http".data.isPrefixOf ("https://a" : String).data = true :=
  C5_http_filter_amended.2 [⟨"https://a", 0⟩] none "https://a" (by decide) rfl

/-- C6 counterexample: `_strip_featured` is not idempotent.  On
"(fe(feat. x)at. y)" one substitution pass removes the inner "(feat. x)",
splicing the remaining text into the new feat-segment "(feat. y)", which a
second application removes entirely. -/
theorem C6_counterexample :
    strip_featured (strip_featured "(fe(feat. x)at. y)") ≠
      strip_featured "(fe(feat. x)at. y)" := by decide

/-- C6 (amended): `primary_artist`, `all_artists_flat` and
`strip_all_parenthetical` are idempotent on every input (and all four
normalizers are total by construction, so none can raise); `strip_feature_credit`
alone is not idempotent, since removing a bracketed feat-segment can splice
the surrounding text into a fresh bracketed feat-segment. -/
theorem C6_normalizers_idempotent_amended :
    (∀ s : String, primary_artist (primary_artist s) = primary_artist s) ∧
    (∀ s : String, all_artists_spaced (all_artists_spaced s) = all_artists_spaced s) ∧
    (∀ s : String, strip_all_parens (strip_all_parens s) = strip_all_parens s) :=
  ⟨primary_artist_idem, all_artists_spaced_idem, strip_all_parens_idem⟩

/-- C7: `strip_feature_credit` removes a bracketed segment that begins with a
featuring marker wherever it sits in the title, while a bare "feat. X"
without enclosing brackets is left unchanged. -/
theorem C7_strip_feature_credit_examples :
    strip_featured "Song (feat. X)" = "Song" ∧
    strip_featured "Song (feat. X) Remix" = "Song Remix" ∧
    strip_featured "Song feat. X" = "Song feat. X" := by decide

/-- C8: when every strategy is exhausted without an acceptable candidate, the
resolver returns the failure pair whose reason names the number of strategies
attempted (the full strategy count). -/
theorem C8_failure_reason_counts
    (backend : String → Nat → List SearchCandidate) (track_name artist : String)
    (duration_ms : Option Int) (n : Nat)
    (h : ∀ q ∈ build_search_queries track_name artist,
      accepted (pick_best (backend q n) duration_ms) = none) :
    search_youtube backend track_name artist duration_ms n =
      ("", "No results after " ++
        Nat.repr (build_search_queries track_name artist).length ++
        " search strategies") := by
  rw [search_youtube]
  exact searchLoop_all_none backend duration_ms n _ _ 1 h

/-- C8 witness: an input with six distinct strategies and a backend that
always returns the empty candidate list; the failure reason mentions "6". -/
theorem C8_failure_reason_counts_witness :
    search_youtube (fun _ _ => []) "Song (feat. X) (Remix)" "A;B" none 3 =
      ("", "No results after 6 search strategies") := by
  have h := C8_failure_reason_counts (fun _ _ => [])
    "Song (feat. X) (Remix)" "A;B" none 3 (by decide)
  exact h.trans (by decide)

/-- C9: end to end, `resolve("Song (feat. X)", "A;B", 200000, 3)` against a
backend whose first two strategy queries yield nothing but whose response to
"Song A" holds a matching-duration candidate succeeds with that candidate's
URL, strategy index 3, and query text "Song A". -/
theorem C9_end_to_end_strategy3 :
    search_youtube
      (fun q _ => if q = "Song A" then [⟨"https://youtu.be/demo", 200⟩] else [])
      "Song (feat. X)" "A;B" (some 200000) 3 =
      ("https://youtu.be/demo", "strategy 3/5: \"Song A\"") := by
  have hacc : accepted (pick_best
      ([⟨"https://youtu.be/demo", 200⟩] : List SearchCandidate) (some 200000)) =
      some "https://youtu.be/demo" := by
    rw [pick_best_singleton]
    rfl
  have h := searchLoop_first_success
    (fun q _ => if q = "Song A" then [⟨"https://youtu.be/demo", 200⟩] else [])
    (some 200000) 3 (build_search_queries "Song (feat. X)" "A;B").length
    (build_search_queries "Song (feat. X)" "A;B") 1 2 "Song A" "https://youtu.be/demo"
    (by decide) (by decide) hacc
  rw [search_youtube, h]
  decide

theorem searchLoop_success_elim (backend : String → Nat → List SearchCandidate)
    (d : Option Int) (n total : Nat) :
    ∀ (l : List String) (idx : Nat) (u s : String),
      searchLoop backend d n total l idx = (u, s) → u ≠ "" →
      ∃ i qw, l[i]? = some qw ∧
        (∀ q ∈ l.take i, accepted (pick_best (backend q n) d) = none) ∧
        accepted (pick_best (backend qw n) d) = some u ∧
        s = "strategy " ++ Nat.repr (idx + i) ++ "/" ++ Nat.repr total ++
          ": \"" ++ qw ++ "\"" := by
  intro l
  induction l with
  | nil =>
    intro idx u s h hu
    rw [searchLoop] at h
    exact absurd (congrArg Prod.fst h).symm (by simpa using hu)
  | cons q rest ih =>
    intro idx u s h hu
    rw [searchLoop] at h
    cases hacc : accepted (pick_best (backend q n) d) with
    | some url =>
      rw [hacc] at h
      have hurl : url = u := by simpa using congrArg Prod.fst h
      have hs : s = "strategy " ++ Nat.repr idx ++ "/" ++ Nat.repr total ++
          ": \"" ++ q ++ "\"" := by
        simpa using (congrArg Prod.snd h).symm
      refine ⟨0, q, by simp, by simp, hurl ▸ hacc, ?_⟩
      rw [hs, Nat.add_zero]
    | none =>
      rw [hacc] at h
      obtain ⟨i, qw, hq, hnone, hacc2, hs⟩ := ih (idx + 1) u s h hu
      refine ⟨i + 1, qw, by simpa using hq, ?_, hacc2, ?_⟩
      · intro r hr
        rw [List.take_succ_cons] at hr
        rcases List.mem_cons.mp hr with rfl | hr2
        · exact hacc
        · exact hnone r hr2
      · rw [hs, Nat.add_assoc, Nat.add_comm 1 i]

/-- C10: whenever the ranker returns a URL it is verbatim the `url` field of
one of its input candidates; and any successful resolver result `(u, s)`
carries a URL the backend actually returned for the winning query: the query
`qw` at some 0-based position `i` of the strategy list such that `s` is the
strategy description naming `qw` with 1-based index `i + 1`, `qw` is the last
query actually handed to the backend (the invocation trace is exactly the
first `i + 1` queries), the ranker on `qw`'s backend response returned `u`,
and `u` is the `url` field of a candidate in that very response. -/
theorem C10_url_from_candidates :
    (∀ (cs : List SearchCandidate) (t : Option Int) (u : String),
        pick_best cs t = some u → ∃ c ∈ cs, c.url = u) ∧
    (∀ (backend : String → Nat → List SearchCandidate)
        (track_name artist : String) (d : Option Int) (n : Nat) (u s : String),
        search_youtube backend track_name artist d n = (u, s) → u ≠ "" →
        ∃ i qw, (build_search_queries track_name artist)[i]? = some qw ∧
          s = "strategy " ++ Nat.repr (i + 1) ++ "/" ++
            Nat.repr (build_search_queries track_name artist).length ++
            ": \"" ++ qw ++ "\"" ∧
          search_youtube_trace backend track_name artist d n =
            (build_search_queries track_name artist).take (i + 1) ∧
          pick_best (backend qw n) d = some u ∧
          ∃ c ∈ backend qw n, c.url = u) := by
  constructor
  · intro cs t u h
    exact pick_best_mem h
  · intro backend track_name artist d n u s h hu
    rw [search_youtube] at h
    obtain ⟨i, qw, hq, hnone, hacc, hs⟩ :=
      searchLoop_success_elim backend d n _ _ 1 u s h hu
    have hpick : pick_best (backend qw n) d = some u := (accepted_eq_some hacc).1
    refine ⟨i, qw, hq, ?_, ?_, hpick, pick_best_mem hpick⟩
    · rw [hs, Nat.add_comm 1 i]
    · rw [search_youtube_trace]
      exact searchLoopTr_trace_success backend d n _ _ 1 i qw u hq hnone hacc

/-- C10 witness: the ranker part applied to a singleton candidate list, and
the resolver part applied to a concrete run that succeeds on the second
strategy, pinning the winning query "Tune X". -/
theorem C10_url_from_candidates_witness :
    (∃ c ∈ ([⟨"https://a", 100⟩] : List SearchCandidate), c.url = "https://a") ∧
    (∃ i qw, (build_search_queries "Tune" "X;Y")[i]? = some qw ∧
      ("strategy 2/4: \"Tune X\"" : String) = "strategy " ++ Nat.repr (i + 1) ++ "/" ++
        Nat.repr (build_search_queries "Tune" "X;Y").length ++ ": \"" ++ qw ++ "\"" ∧
      search_youtube_trace
        (fun q _ => if q = "Tune X" then [⟨"http://u2", 100⟩] else [])
        "Tune" "X;Y" none 3 = (build_search_queries "Tune" "X;Y").take (i + 1) ∧
      pick_best (((fun q _ => if q = "Tune X" then [⟨"http://u2", 100⟩] else []) :
          String → Nat → List SearchCandidate) qw 3) none = some "http://u2" ∧
      ∃ c ∈ ((fun q _ => if q = "Tune X" then [⟨"http://u2", 100⟩] else []) :
          String → Nat → List SearchCandidate) qw 3,
        c.url = "http://u2") :=
  ⟨C10_url_from_candidates.1 [⟨"https://a", 100⟩] none "https://a" rfl,
   C10_url_from_candidates.2
     (fun q _ => if q = "Tune X" then [⟨"http://u2", 100⟩] else [])
     "Tune" "X;Y" none 3 "http://u2" "strategy 2/4: \"Tune X\""
     (by decide) (by decide)⟩
